import Mathlib

/-!
# Bounded line echo (`misra-ci/examples/c_project/bad.c`)

A shallow embedding of the C program

```c
char buf[16];

int main(void) {
  if (fgets(buf, sizeof(buf), stdin) == NULL) { return 1; }
  buf[strcspn(buf, "\n")] = '\0';
  printf("%s\n", buf);
  return 0;
}
```

* A byte is a `Fin 256`; the newline byte is `10`, the end-of-text marker is `0`.
* Standard input is the finite list of bytes still to be read, followed by
  end-of-stream.  Stream I/O errors are outside the model: the only way a read
  can fail is end-of-stream.
* The array `buf` is a list of bytes.  Every access goes through a bounds
  check; an access outside the array makes the whole run `none`, so that
  "the program stays inside `buf`" is a theorem and not an assumption.
* The three library routines are embedded after their C-standard behaviour:
  `fgets` as the usual read loop, `strcspn` as a scan, `printf("%s\n", _)` as
  the bytes of the string followed by a newline.
-/

namespace Echo

/-- One `char`. -/
abbrev Byte := Fin 256

/-- The line terminator, `'\n'`. -/
abbrev NL : Byte := 10

/-- The end-of-text marker, `'\0'`. -/
abbrev NUL : Byte := 0

/-- The value of `sizeof(buf)` for `char buf[16]`. -/
abbrev CAP : Nat := 16

/-- The object `char buf[16]` at program start: static storage, all zero. -/
def buf0 : List Byte := List.replicate CAP NUL

/-- The assignment `a[i] = c` on an array: defined only inside the array. -/
def store (a : List Byte) (i : Nat) (c : Byte) : Option (List Byte) :=
  if i < a.length then some (a.set i c) else none

/-- The read loop of `fgets`: `room` counts the characters that may still be
stored (`n - 1` at the start), `i` is the next index of the array.  The loop
stops when there is no room left, at end-of-stream, or right after it stored a
newline.  It returns the next index, the array, the unread rest of the stream
and whether end-of-stream was met. -/
def fgetsLoop : Nat → Nat → List Byte → List Byte → Option (Nat × List Byte × List Byte × Bool)
  | 0, i, a, st => some (i, a, st, false)
  | _ + 1, i, a, [] => some (i, a, [], true)
  | room + 1, i, a, c :: st =>
    match store a i c with
    | none => none
    | some a1 => if c = NL then some (i + 1, a1, st, false) else fgetsLoop room (i + 1) a1 st

/-- What a call of `fgets` leaves behind. -/
structure FgetsResult where
  /-- Is the returned pointer non-null? -/
  ok : Bool
  /-- The array after the call. -/
  buf : List Byte
  /-- The unread rest of the stream. -/
  stream : List Byte
  deriving DecidableEq, Repr

/-- The call `fgets(a, n, stream)`: at most `n - 1` characters are read, none
after a newline or after end-of-stream; a `'\0'` is stored right after the last
character read.  At end-of-stream with no character read the array is unchanged
and the null pointer is returned.  (`n ≤ 0` is not modelled apart: the program
calls it with `n = 16`.) -/
def fgets (a : List Byte) (n : Nat) (stream : List Byte) : Option FgetsResult :=
  match fgetsLoop (n - 1) 0 a stream with
  | none => none
  | some (i, a1, rest, eof) =>
    if eof && i == 0 then some ⟨false, a1, rest⟩
    else
      match store a1 i NUL with
      | none => none
      | some a2 => some ⟨true, a2, rest⟩

/-- The call `strcspn(s, reject)`, where `s` is read from the array `s` and
`reject` holds the characters of the second string: the number of characters
before the first one that is `'\0'` or occurs in `reject`.  Running off the end
of the array without meeting such a character is an out-of-bounds read. -/
def strcspn : List Byte → List Byte → Option Nat
  | [], _ => none
  | c :: s, reject =>
    if c = NUL ∨ c ∈ reject then some 0 else (strcspn s reject).map (· + 1)

/-- The statement `buf[strcspn(buf, "\n")] = '\0';`. -/
def strip (a : List Byte) : Option (List Byte) :=
  match strcspn a [NL] with
  | none => none
  | some i => store a i NUL

/-- The string held in an array: the characters before the first `'\0'`.  An
array without `'\0'` holds no string (reading it runs off the end). -/
def cstr : List Byte → Option (List Byte)
  | [] => none
  | c :: s => if c = NUL then some [] else (cstr s).map (c :: ·)

/-- The bytes written by `printf("%s\n", a)`. -/
def printfLine (a : List Byte) : Option (List Byte) :=
  (cstr a).map (· ++ [NL])

/-- What a run of the program leaves behind. -/
structure Outcome where
  /-- The value returned by `main`. -/
  status : Int
  /-- The bytes written to standard output. -/
  stdout : List Byte
  /-- The bytes of standard input that were not read. -/
  stdin : List Byte
  /-- The array `buf` at exit. -/
  buf : List Byte
  deriving DecidableEq, Repr

/-- The function `main`, run on the bytes of standard input. -/
def main (stdin : List Byte) : Option Outcome :=
  match fgets buf0 CAP stdin with
  | none => none
  | some r =>
    if r.ok = false then some ⟨1, [], r.stream, r.buf⟩
    else
      match strip r.buf with
      | none => none
      | some b =>
        match printfLine b with
        | none => none
        | some out => some ⟨0, out, r.stream, b⟩

/-- The observable behaviour of a run: the bytes written to standard output
and the exit status. -/
def run (stdin : List Byte) : Option (List Byte × Int) :=
  (main stdin).map fun o => (o.stdout, o.status)

/-- The characters a read loop with room for `room` characters takes from the
stream: up to and including the first newline, at most `room`, at most all of
them.  (A list-level description of `fgetsLoop`, related to it by
`fgetsLoop_eq`.) -/
def consumed : Nat → List Byte → List Byte
  | 0, _ => []
  | _ + 1, [] => []
  | room + 1, c :: st => if c = NL then [c] else c :: consumed room st

/-- A stretch `p` of the stream at which a bounded read with room for `room`
characters may stop: `p` ends with its first newline byte, or `p` has `room`
bytes, or `p` is the whole stream. -/
def ReadStop (room : Nat) (stream p : List Byte) : Prop :=
  (∃ q, p = q ++ [NL] ∧ NL ∉ q) ∨ p.length = room ∨ p = stream

/-- A character at which `strcspn(_, "\n")` keeps scanning: neither `'\0'` nor
`'\n'`. -/
def plain (c : Byte) : Bool := decide (c ≠ NUL) && decide (c ≠ NL)

theorem store_append (p s : List Byte) (x c : Byte) :
    store (p ++ x :: s) p.length c = some (p ++ c :: s) := by
  simp [store]

theorem consumed_length_le (room : Nat) (st : List Byte) :
    (consumed room st).length ≤ room := by
  induction room generalizing st with
  | zero => simp [consumed]
  | succ k ih =>
    cases st with
    | nil => simp [consumed]
    | cons c st =>
      by_cases h : c = NL
      · simp [consumed, h]
      · simpa [consumed, h] using ih st

theorem consumed_append_drop (room : Nat) (st : List Byte) :
    consumed room st ++ st.drop (consumed room st).length = st := by
  induction room generalizing st with
  | zero => simp [consumed]
  | succ k ih =>
    cases st with
    | nil => simp [consumed]
    | cons c st =>
      by_cases h : c = NL
      · simp [consumed, h]
      · simpa [consumed, h] using ih st

theorem fgetsLoop_eq (room : Nat) (p s st : List Byte) (h : room ≤ s.length) :
    ∃ e, fgetsLoop room p.length (p ++ s) st =
      some (p.length + (consumed room st).length,
        p ++ consumed room st ++ s.drop (consumed room st).length,
        st.drop (consumed room st).length, e) := by
  induction room generalizing p s st with
  | zero => exact ⟨false, by simp [fgetsLoop, consumed]⟩
  | succ k ih =>
    cases st with
    | nil => exact ⟨true, by simp [fgetsLoop, consumed]⟩
    | cons c st =>
      cases s with
      | nil => simp at h
      | cons x s =>
        have hk : k ≤ s.length := by simpa using h
        by_cases hc : c = NL
        · exact ⟨false, by simp [fgetsLoop, consumed, store_append, hc]⟩
        · obtain ⟨e, he⟩ := ih (p ++ [c]) s st hk
          refine ⟨e, ?_⟩
          simp only [List.length_append, List.length_singleton, List.append_assoc,
            List.singleton_append] at he
          simp [fgetsLoop, consumed, store_append, hc, he]
          omega

theorem plain_iff (c : Byte) : plain c = true ↔ c ≠ NUL ∧ c ≠ NL := by
  simp [plain]

theorem strcspn_append (a r : List Byte) (x : Byte)
    (ha : ∀ c ∈ a, plain c = true) (hx : x = NUL ∨ x = NL) :
    strcspn (a ++ x :: r) [NL] = some a.length := by
  induction a with
  | nil => rcases hx with rfl | rfl <;> simp [strcspn]
  | cons c a ih =>
    have hc := (plain_iff c).1 (ha c (List.mem_cons_self c a))
    have ih2 := ih (fun d hd => ha d (List.mem_cons_of_mem c hd))
    simp [strcspn, hc.1, hc.2, ih2]

theorem cstr_append (a r : List Byte) (ha : ∀ c ∈ a, c ≠ NUL) :
    cstr (a ++ NUL :: r) = some a := by
  induction a with
  | nil => simp [cstr]
  | cons c a ih =>
    have hc := ha c (List.mem_cons_self c a)
    have ih2 := ih (fun d hd => ha d (List.mem_cons_of_mem c hd))
    simp [cstr, hc, ih2]

theorem strip_append (a r : List Byte) (x : Byte)
    (ha : ∀ c ∈ a, plain c = true) (hx : x = NUL ∨ x = NL) :
    strip (a ++ x :: r) = some (a ++ NUL :: r) := by
  simp [strip, strcspn_append a r x ha hx, store_append]

theorem takeWhile_plain_split (l r : List Byte) :
    ∃ x r1, l ++ NUL :: r = l.takeWhile plain ++ x :: r1 ∧ (x = NUL ∨ x = NL) := by
  induction l with
  | nil => exact ⟨NUL, r, by simp, Or.inl rfl⟩
  | cons c l ih =>
    by_cases hc : plain c = true
    · obtain ⟨x, r1, h1, h2⟩ := ih
      exact ⟨x, r1, by simp [List.takeWhile, hc, h1], h2⟩
    · refine ⟨c, l ++ NUL :: r, by simp [List.takeWhile, hc], ?_⟩
      have := (plain_iff c).not.1 hc
      by_cases h0 : c = NUL
      · exact Or.inl h0
      · exact Or.inr (by_contra fun h1 => this ⟨h0, h1⟩)

theorem fgets_nil (a : List Byte) (n : Nat) (hn : 1 < n) :
    fgets a n [] = some ⟨false, a, []⟩ := by
  obtain ⟨k, rfl⟩ : ∃ k, n = k + 2 := ⟨n - 2, by omega⟩
  simp [fgets, fgetsLoop]

theorem consumed_cons_length_pos (room : Nat) (c : Byte) (st : List Byte) :
    0 < (consumed (room + 1) (c :: st)).length := by
  by_cases h : c = NL <;> simp [consumed, h]

theorem fgets_cons (a : List Byte) (n : Nat) (c : Byte) (st : List Byte)
    (hn : 1 < n) (ha : n ≤ a.length) :
    fgets a n (c :: st) = some ⟨true,
      consumed (n - 1) (c :: st) ++ NUL :: a.drop ((consumed (n - 1) (c :: st)).length + 1),
      (c :: st).drop (consumed (n - 1) (c :: st)).length⟩ := by
  obtain ⟨k, rfl⟩ : ∃ k, n = k + 2 := ⟨n - 2, by omega⟩
  obtain ⟨e, he⟩ := fgetsLoop_eq (k + 1) [] a (c :: st) (by omega)
  have hpos := consumed_cons_length_pos k c st
  have hle := consumed_length_le (k + 1) (c :: st)
  simp only [List.length_nil, List.nil_append, Nat.zero_add] at he
  have hne : (consumed (k + 1) (c :: st)).length ≠ 0 := by omega
  obtain ⟨x, r, hr⟩ : ∃ x r, a.drop (consumed (k + 1) (c :: st)).length = x :: r := by
    cases hd : a.drop (consumed (k + 1) (c :: st)).length with
    | nil =>
      have := congrArg List.length hd
      simp at this
      omega
    | cons x r => exact ⟨x, r, rfl⟩
  have hr2 : a.drop ((consumed (k + 1) (c :: st)).length + 1) = r := by
    rw [← List.drop_drop, hr]
    rfl
  have h21 : k + 2 - 1 = k + 1 := by omega
  simp only [fgets, h21, he, hr, hr2, store_append]
  simp [hne]

theorem plain_of_mem_takeWhile (l : List Byte) (c : Byte) (h : c ∈ l.takeWhile plain) :
    plain c = true :=
  List.mem_takeWhile_imp h

theorem main_nil : main [] = some ⟨1, [], [], buf0⟩ := by
  decide

theorem main_cons (c : Byte) (st : List Byte) :
    ∃ x r, consumed 15 (c :: st) ++ NUL :: buf0.drop ((consumed 15 (c :: st)).length + 1) =
        (consumed 15 (c :: st)).takeWhile plain ++ x :: r ∧ (x = NUL ∨ x = NL) ∧
      main (c :: st) = some ⟨0, (consumed 15 (c :: st)).takeWhile plain ++ [NL],
        (c :: st).drop (consumed 15 (c :: st)).length,
        (consumed 15 (c :: st)).takeWhile plain ++ NUL :: r⟩ := by
  obtain ⟨x, r, h1, h2⟩ := takeWhile_plain_split (consumed 15 (c :: st))
    (buf0.drop ((consumed 15 (c :: st)).length + 1))
  refine ⟨x, r, h1, h2, ?_⟩
  have hf := fgets_cons buf0 CAP c st (by decide) (by decide)
  have hp : ∀ d ∈ (consumed 15 (c :: st)).takeWhile plain, plain d = true :=
    plain_of_mem_takeWhile _
  have hs := strip_append _ r x hp h2
  have hc := cstr_append ((consumed 15 (c :: st)).takeWhile plain) r
    (fun d hd => ((plain_iff d).1 (hp d hd)).1)
  have h15 : CAP - 1 = 15 := rfl
  rw [h15, h1] at hf
  simp [main, hf, hs, printfLine, hc]

theorem run_nil : run [] = some ([], 1) := by
  decide

theorem run_cons (c : Byte) (st : List Byte) :
    run (c :: st) = some ((consumed 15 (c :: st)).takeWhile plain ++ [NL], 0) := by
  obtain ⟨x, r, -, -, h⟩ := main_cons c st
  simp [run, h]

theorem run_of_ne_nil (stdin : List Byte) (h : stdin ≠ []) :
    run stdin = some ((consumed 15 stdin).takeWhile plain ++ [NL], 0) := by
  cases stdin with
  | nil => exact absurd rfl h
  | cons c st => exact run_cons c st

theorem consumed_eq_take (room : Nat) (st : List Byte) (h : NL ∉ st.take room) :
    consumed room st = st.take room := by
  induction room generalizing st with
  | zero => simp [consumed]
  | succ k ih =>
    cases st with
    | nil => simp [consumed]
    | cons c st =>
      simp only [List.take_succ_cons, List.mem_cons, not_or] at h
      have hc : c ≠ NL := fun e => h.1 e.symm
      simp [consumed, hc, ih st h.2]

theorem consumed_append_newline (room : Nat) (pre post : List Byte)
    (h : NL ∉ pre) (hlen : pre.length < room) :
    consumed room (pre ++ NL :: post) = pre ++ [NL] := by
  induction pre generalizing room with
  | nil =>
    obtain ⟨k, rfl⟩ : ∃ k, room = k + 1 := ⟨room - 1, by simp at hlen; omega⟩
    simp [consumed]
  | cons c pre ih =>
    obtain ⟨k, rfl⟩ : ∃ k, room = k + 1 := ⟨room - 1, by simp at hlen; omega⟩
    simp only [List.mem_cons, not_or] at h
    have hc : c ≠ NL := fun e => h.1 e.symm
    have hk : pre.length < k := by simpa using hlen
    simp [consumed, hc, ih k h.2 hk]

theorem takeWhile_plain_self (l : List Byte) (h0 : NUL ∉ l) (h1 : NL ∉ l) :
    l.takeWhile plain = l := by
  rw [List.takeWhile_eq_self_iff]
  intro c hc
  exact (plain_iff c).2 ⟨fun e => h0 (e ▸ hc), fun e => h1 (e ▸ hc)⟩

theorem takeWhile_plain_append_newline (l : List Byte) (h0 : NUL ∉ l) (h1 : NL ∉ l) :
    (l ++ [NL]).takeWhile plain = l := by
  induction l with
  | nil => simp [List.takeWhile, plain]
  | cons c l ih =>
    simp only [List.mem_cons, not_or] at h0 h1
    have hc : plain c = true := (plain_iff c).2 ⟨fun e => h0.1 e.symm, fun e => h1.1 e.symm⟩
    simp [List.takeWhile, hc, ih h0.2 h1.2]

theorem split_of_mem_nul (b : List Byte) (h : NUL ∈ b) :
    ∃ a x r, b = a ++ x :: r ∧ (∀ c ∈ a, plain c = true) ∧ (x = NUL ∨ x = NL) := by
  obtain ⟨s, t, rfl⟩ := List.append_of_mem h
  obtain ⟨x, r, h1, h2⟩ := takeWhile_plain_split s t
  exact ⟨s.takeWhile plain, x, r, h1, plain_of_mem_takeWhile s, h2⟩

theorem not_mem_of_plain (a : List Byte) (h : ∀ c ∈ a, plain c = true) :
    NUL ∉ a ∧ NL ∉ a :=
  ⟨fun h0 => ((plain_iff NUL).1 (h NUL h0)).1 rfl, fun h1 => ((plain_iff NL).1 (h NL h1)).2 rfl⟩

theorem set_append_cons (a r : List Byte) (x c : Byte) :
    (a ++ x :: r).set a.length c = a ++ c :: r := by
  simp

theorem consumed_readStop (room : Nat) (st : List Byte) :
    ReadStop room st (consumed room st) := by
  induction room generalizing st with
  | zero => exact Or.inr (Or.inl (by simp [consumed]))
  | succ k ih =>
    cases st with
    | nil => exact Or.inr (Or.inr (by simp [consumed]))
    | cons c st =>
      by_cases hc : c = NL
      · exact Or.inl ⟨[], by simp [consumed, hc]⟩
      · have e : consumed (k + 1) (c :: st) = c :: consumed k st := by simp [consumed, hc]
        rw [e]
        rcases ih st with ⟨q, hq, hn⟩ | h | h
        · refine Or.inl ⟨c :: q, by simp [hq], ?_⟩
          simp only [List.mem_cons, not_or]
          exact ⟨fun e => hc e.symm, hn⟩
        · exact Or.inr (Or.inl (by simp [h]))
        · exact Or.inr (Or.inr (by rw [h]))

theorem consumed_length_le_of_readStop (room : Nat) (st p t : List Byte)
    (hst : st = p ++ t) (hp : ReadStop room st p) :
    (consumed room st).length ≤ p.length := by
  induction room generalizing st p t with
  | zero => simp [consumed]
  | succ k ih =>
    cases st with
    | nil => simp [consumed]
    | cons c st =>
      cases p with
      | nil =>
        rcases hp with ⟨q, hq, -⟩ | h | h
        · simp at hq
        · simp at h
        · simp at h
      | cons d p =>
        simp only [List.cons_append, List.cons.injEq] at hst
        obtain ⟨rfl, hst⟩ := hst
        by_cases hc : c = NL
        · simp [consumed, hc]
        · have e : consumed (k + 1) (c :: st) = c :: consumed k st := by simp [consumed, hc]
          rw [e]
          have hp2 : ReadStop k st p := by
            rcases hp with ⟨q, hq, hn⟩ | h | h
            · cases q with
              | nil =>
                simp only [List.nil_append, List.cons.injEq] at hq
                exact absurd hq.1 hc
              | cons x q =>
                simp only [List.cons_append, List.cons.injEq] at hq
                simp only [List.mem_cons, not_or] at hn
                exact Or.inl ⟨q, hq.2, hn.2⟩
            · exact Or.inr (Or.inl (by simpa using h))
            · exact Or.inr (Or.inr (by simpa using h))
          simpa using ih st p t hst hp2

/-! ## Echo of a short line, of a terminated line, of a long line -/

/-- C1, as stated, fails at two inputs of length at most 15 without a newline:
on the empty input `main` writes nothing and returns 1, and on the three bytes
`a`, `\0`, `b` it writes `a` and a newline, not the three bytes and a newline. -/
theorem C1_counterexample :
    (([] : List Byte).length ≤ 15 ∧ NL ∉ ([] : List Byte) ∧
      run [] = some ([], 1) ∧ run [] ≠ some ([] ++ [NL], 0)) ∧
    (([97, 0, 98] : List Byte).length ≤ 15 ∧ NL ∉ ([97, 0, 98] : List Byte) ∧
      run [97, 0, 98] = some ([97, 10], 0) ∧
      run [97, 0, 98] ≠ some ([97, 0, 98] ++ [NL], 0)) := by
  decide

/-- C1 (amended): for every non-empty input of length at most 15 that contains
neither a newline byte nor a zero byte, followed by end-of-stream, `main` writes
exactly the input bytes followed by one newline and returns exit status 0. -/
theorem C1_short_line_echoed (stdin : List Byte) (hne : stdin ≠ [])
    (hlen : stdin.length ≤ 15) (hnl : NL ∉ stdin) (hnul : NUL ∉ stdin) :
    run stdin = some (stdin ++ [NL], 0) := by
  have ht : stdin.take 15 = stdin := List.take_of_length_le hlen
  have hc : consumed 15 stdin = stdin := by
    rw [consumed_eq_take 15 stdin (by rw [ht]; exact hnl), ht]
  rw [run_of_ne_nil stdin hne, hc, takeWhile_plain_self stdin hnul hnl]

/-- C1 (amended) at the input `hi`. -/
theorem C1_short_line_echoed_witness :
    ([104, 105] : List Byte) ≠ [] ∧ ([104, 105] : List Byte).length ≤ 15 ∧
      NL ∉ ([104, 105] : List Byte) ∧ NUL ∉ ([104, 105] : List Byte) ∧
      run [104, 105] = some ([104, 105, 10], 0) :=
  ⟨by decide, by decide, by decide, by decide,
    C1_short_line_echoed [104, 105] (by decide) (by decide) (by decide) (by decide)⟩

/-- C2, as stated, fails at the input `a`, `\0`, `b`, newline: its first newline
is its fourth byte, the bytes before it are `a`, `\0`, `b`, and `main` writes
only `a` and a newline. -/
theorem C2_counterexample :
    ([97, 0, 98, 10] : List Byte) = [97, 0, 98] ++ NL :: [] ∧
      NL ∉ ([97, 0, 98] : List Byte) ∧ ([97, 0, 98] : List Byte).length < 15 ∧
      run [97, 0, 98, 10] = some ([97, 10], 0) ∧
      run [97, 0, 98, 10] ≠ some ([97, 0, 98] ++ [NL], 0) := by
  decide

/-- C2 (amended): for every input whose first newline byte lies within its
first 15 bytes and has no zero byte before it (the input is `pre`, a newline,
`post`, with fewer than 15 bytes in `pre`, none of them a newline or zero),
`main` writes exactly `pre` followed by one newline and returns exit status 0. -/
theorem C2_terminated_line_echoed (pre post : List Byte)
    (hnl : NL ∉ pre) (hlen : pre.length < 15) (hnul : NUL ∉ pre) :
    run (pre ++ NL :: post) = some (pre ++ [NL], 0) := by
  rw [run_of_ne_nil _ (by simp), consumed_append_newline 15 pre post hnl hlen,
    takeWhile_plain_append_newline pre hnul hnl]

/-- C2 (amended) at the inputs `hello` with a newline, and a lone newline. -/
theorem C2_terminated_line_echoed_witness :
    (NL ∉ ([104, 101, 108, 108, 111] : List Byte) ∧
      ([104, 101, 108, 108, 111] : List Byte).length < 15 ∧
      NUL ∉ ([104, 101, 108, 108, 111] : List Byte) ∧
      run [104, 101, 108, 108, 111, 10] = some ([104, 101, 108, 108, 111, 10], 0)) ∧
    (NL ∉ ([] : List Byte) ∧ ([] : List Byte).length < 15 ∧ NUL ∉ ([] : List Byte) ∧
      run [10] = some ([10], 0)) :=
  ⟨⟨by decide, by decide, by decide,
      C2_terminated_line_echoed [104, 101, 108, 108, 111] [] (by decide) (by decide)
        (by decide)⟩,
    ⟨by decide, by decide, by decide,
      C2_terminated_line_echoed [] [] (by decide) (by decide) (by decide)⟩⟩

/-- C3, as stated, fails at a 15-byte input without newline whose second byte
is zero: `main` writes only the first byte and a newline. -/
theorem C3_counterexample :
    15 ≤ ([97, 0, 98, 99, 100, 101, 102, 103, 104, 105, 106, 107, 108, 109, 110] :
        List Byte).length ∧
      NL ∉ ([97, 0, 98, 99, 100, 101, 102, 103, 104, 105, 106, 107, 108, 109, 110] :
        List Byte).take 15 ∧
      run [97, 0, 98, 99, 100, 101, 102, 103, 104, 105, 106, 107, 108, 109, 110] =
        some ([97, 10], 0) ∧
      run [97, 0, 98, 99, 100, 101, 102, 103, 104, 105, 106, 107, 108, 109, 110] ≠
        some (([97, 0, 98, 99, 100, 101, 102, 103, 104, 105, 106, 107, 108, 109, 110] :
          List Byte).take 15 ++ [NL], 0) := by
  decide

/-- C3 (amended): for every input of length at least 15 with neither a newline
byte nor a zero byte among its first 15 bytes, `main` writes exactly the first
15 input bytes followed by one newline and returns exit status 0. -/
theorem C3_long_line_truncated (stdin : List Byte) (hlen : 15 ≤ stdin.length)
    (hnl : NL ∉ stdin.take 15) (hnul : NUL ∉ stdin.take 15) :
    run stdin = some (stdin.take 15 ++ [NL], 0) := by
  have hne : stdin ≠ [] := by
    intro h
    simp [h] at hlen
  rw [run_of_ne_nil stdin hne, consumed_eq_take 15 stdin hnl,
    takeWhile_plain_self _ hnul hnl]

/-- C3 (amended) at the lower-case alphabet followed by a newline. -/
theorem C3_long_line_truncated_witness :
    15 ≤ ([97, 98, 99, 100, 101, 102, 103, 104, 105, 106, 107, 108, 109, 110, 111, 112,
        113, 114, 115, 116, 117, 118, 119, 120, 121, 122, 10] : List Byte).length ∧
      NL ∉ ([97, 98, 99, 100, 101, 102, 103, 104, 105, 106, 107, 108, 109, 110, 111, 112,
        113, 114, 115, 116, 117, 118, 119, 120, 121, 122, 10] : List Byte).take 15 ∧
      NUL ∉ ([97, 98, 99, 100, 101, 102, 103, 104, 105, 106, 107, 108, 109, 110, 111, 112,
        113, 114, 115, 116, 117, 118, 119, 120, 121, 122, 10] : List Byte).take 15 ∧
      run [97, 98, 99, 100, 101, 102, 103, 104, 105, 106, 107, 108, 109, 110, 111, 112,
        113, 114, 115, 116, 117, 118, 119, 120, 121, 122, 10] =
        some ([97, 98, 99, 100, 101, 102, 103, 104, 105, 106, 107, 108, 109, 110, 111, 10],
          0) :=
  ⟨by decide, by decide, by decide,
    C3_long_line_truncated _ (by decide) (by decide) (by decide)⟩

/-! ## Exit status and shape of the output -/

/-- C4: on a stream without I/O errors (the only streams of this model), `main`
returns exit status 1 exactly when the input is empty, and then writes nothing;
on every non-empty input it returns exit status 0. -/
theorem C4_exit_status (stdin : List Byte) :
    ∃ out status, run stdin = some (out, status) ∧
      ((status = 1 ∧ out = []) ↔ stdin = []) ∧ (status = 1 ↔ stdin = []) ∧
      (stdin ≠ [] → status = 0) := by
  cases stdin with
  | nil => exact ⟨[], 1, run_nil, by simp⟩
  | cons c st => exact ⟨_, 0, run_cons c st, by simp⟩

/-- C5: on every non-empty input the output of `main` is exactly one line: it
is non-empty, its last byte is a newline and no earlier byte is a newline; on
the empty input the output is empty. -/
theorem C5_output_is_one_line (stdin : List Byte) :
    ∃ out status, run stdin = some (out, status) ∧
      (stdin = [] → out = []) ∧
      (stdin ≠ [] → out ≠ [] ∧ out.getLast? = some NL ∧ NL ∉ out.dropLast) := by
  cases stdin with
  | nil => exact ⟨[], 1, run_nil, by simp⟩
  | cons c st =>
    refine ⟨_, 0, run_cons c st, by simp, fun _ => ⟨by simp, by simp, ?_⟩⟩
    rw [List.dropLast_concat]
    intro h
    have := (plain_iff NL).1 (plain_of_mem_takeWhile _ _ h)
    exact this.2 rfl

/-- C7: on every input, the string left in `buf` at exit (the payload that is
echoed) has at most 15 bytes; on a non-empty input the output is that string
followed by a newline; the output has at most 16 bytes. -/
theorem C7_payload_bounded (stdin : List Byte) :
    ∃ o payload, main stdin = some o ∧ cstr o.buf = some payload ∧
      payload.length ≤ CAP - 1 ∧ (stdin ≠ [] → o.stdout = payload ++ [NL]) ∧
      o.stdout.dropLast.length ≤ CAP - 1 ∧ o.stdout.length ≤ CAP := by
  cases stdin with
  | nil => exact ⟨_, [], main_nil, by decide, by decide, by simp, by decide, by decide⟩
  | cons c st =>
    obtain ⟨x, r, -, -, h⟩ := main_cons c st
    have hp : ∀ d ∈ (consumed 15 (c :: st)).takeWhile plain, d ≠ NUL :=
      fun d hd => ((plain_iff d).1 (plain_of_mem_takeWhile _ d hd)).1
    have h1 : ((consumed 15 (c :: st)).takeWhile plain).length ≤ 15 :=
      le_trans (List.takeWhile_sublist plain).length_le (consumed_length_le 15 (c :: st))
    have hcap : CAP = 16 := rfl
    refine ⟨_, _, h, cstr_append _ r hp, h1, fun _ => rfl, ?_, ?_⟩
    · simp only [List.dropLast_concat]
      exact h1
    · simp only [List.length_append, List.length_singleton]
      omega

/-! ## Memory safety -/

/-- C6: on every input the bounded read stays inside the 16 bytes of `buf`
(it returns, and the array still has 16 bytes); whenever the read succeeds, the
index `strcspn(buf, "\n")` is defined and less than 16, so the store of the
strip step is inside `buf` too; hence no run of `main` takes the out-of-bounds
branch. -/
theorem C6_accesses_in_bounds (stdin : List Byte) :
    ∃ r, fgets buf0 CAP stdin = some r ∧ r.buf.length = CAP ∧
      (r.ok = true → ∃ i b, strcspn r.buf [NL] = some i ∧ i < CAP ∧
        store r.buf i NUL = some b ∧ b.length = CAP) ∧
      (main stdin).isSome = true := by
  cases stdin with
  | nil =>
    exact ⟨_, fgets_nil buf0 CAP (by decide), by decide, by simp, by simp [main_nil]⟩
  | cons c st =>
    obtain ⟨x, r, h1, h2, h3⟩ := main_cons c st
    have hf := fgets_cons buf0 CAP c st (by decide) (by decide)
    have h15 : CAP - 1 = 15 := rfl
    have hcap : CAP = 16 := rfl
    rw [h15] at hf
    have hle := consumed_length_le 15 (c :: st)
    have hlen : (consumed 15 (c :: st) ++
        NUL :: buf0.drop ((consumed 15 (c :: st)).length + 1)).length = CAP := by
      have h0 : buf0.length = 16 := rfl
      simp only [List.length_append, List.length_cons, List.length_drop, h0]
      omega
    have hp : ∀ d ∈ (consumed 15 (c :: st)).takeWhile plain, plain d = true :=
      plain_of_mem_takeWhile _
    have hlen2 : ((consumed 15 (c :: st)).takeWhile plain ++ NUL :: r).length = CAP := by
      rw [← hlen, h1]
      simp
    have hi : ((consumed 15 (c :: st)).takeWhile plain).length < CAP := by
      simp only [List.length_append, List.length_cons] at hlen2
      omega
    refine ⟨_, hf, hlen, fun _ => ⟨_, _, ?_, hi, ?_, hlen2⟩, by simp [h3]⟩
    · show strcspn (consumed 15 (c :: st) ++ _) [NL] = _
      rw [h1]
      exact strcspn_append _ r x hp h2
    · show store (consumed 15 (c :: st) ++ _) _ NUL = _
      rw [h1]
      exact store_append _ r x NUL

/-! ## The strip step -/

/-- C8: the strip step is idempotent: on every 16-byte buffer that contains an
end-of-text marker it is defined, applying it to its own result changes
nothing, so twice is the same as once, for the buffer and for the string it
holds. -/
theorem C8_strip_idempotent (b : List Byte) (hlen : b.length = CAP) (hnul : NUL ∈ b) :
    ∃ b1, strip b = some b1 ∧ b1.length = CAP ∧ strip b1 = some b1 ∧
      (strip b).bind strip = strip b ∧
      ((strip b).bind strip).bind cstr = (strip b).bind cstr := by
  obtain ⟨a, x, r, rfl, ha, hx⟩ := split_of_mem_nul b hnul
  have h1 := strip_append a r x ha hx
  have h2 := strip_append a r NUL ha (Or.inl rfl)
  refine ⟨a ++ NUL :: r, h1, ?_, h2, ?_, ?_⟩
  · rw [← hlen]
    simp
  · rw [h1]
    exact h2
  · rw [h1]
    simp [h2]

/-- C8 at the buffer holding `hi`, a newline and thirteen zero bytes. -/
theorem C8_strip_idempotent_witness :
    ([104, 105, 10, 0, 0, 0, 0, 0, 0, 0, 0, 0, 0, 0, 0, 0] : List Byte).length = CAP ∧
      NUL ∈ ([104, 105, 10, 0, 0, 0, 0, 0, 0, 0, 0, 0, 0, 0, 0, 0] : List Byte) ∧
      ∃ b1, strip [104, 105, 10, 0, 0, 0, 0, 0, 0, 0, 0, 0, 0, 0, 0, 0] = some b1 ∧
        b1.length = CAP ∧ strip b1 = some b1 ∧
        (strip [104, 105, 10, 0, 0, 0, 0, 0, 0, 0, 0, 0, 0, 0, 0, 0]).bind strip =
          strip [104, 105, 10, 0, 0, 0, 0, 0, 0, 0, 0, 0, 0, 0, 0, 0] ∧
        ((strip [104, 105, 10, 0, 0, 0, 0, 0, 0, 0, 0, 0, 0, 0, 0, 0]).bind strip).bind cstr =
          (strip [104, 105, 10, 0, 0, 0, 0, 0, 0, 0, 0, 0, 0, 0, 0, 0]).bind cstr :=
  ⟨by decide, by decide, C8_strip_idempotent _ (by decide) (by decide)⟩

/-- C9, as stated, fails at the 16-byte buffer `a`, `\0`, `b`, newline, zeros
(what the read leaves for the input `a`, `\0`, `b`, newline): it holds an
end-of-text marker and a newline, whose first occurrence is at index 3, and the
strip step leaves the buffer as it is, the newline included. -/
theorem C9_counterexample :
    ([97, 0, 98, 10, 0, 0, 0, 0, 0, 0, 0, 0, 0, 0, 0, 0] : List Byte).length = CAP ∧
      NUL ∈ ([97, 0, 98, 10, 0, 0, 0, 0, 0, 0, 0, 0, 0, 0, 0, 0] : List Byte) ∧
      ([97, 0, 98, 10, 0, 0, 0, 0, 0, 0, 0, 0, 0, 0, 0, 0] : List Byte).indexOf NL = 3 ∧
      strip [97, 0, 98, 10, 0, 0, 0, 0, 0, 0, 0, 0, 0, 0, 0, 0] =
        some [97, 0, 98, 10, 0, 0, 0, 0, 0, 0, 0, 0, 0, 0, 0, 0] ∧
      strip [97, 0, 98, 10, 0, 0, 0, 0, 0, 0, 0, 0, 0, 0, 0, 0] ≠
        some (([97, 0, 98, 10, 0, 0, 0, 0, 0, 0, 0, 0, 0, 0, 0, 0] : List Byte).set 3 NUL) ∧
      (fgets buf0 CAP [97, 0, 98, 10]).map (·.buf) =
        some [97, 0, 98, 10, 0, 0, 0, 0, 0, 0, 0, 0, 0, 0, 0, 0] := by
  decide

/-- C9 (amended): on every 16-byte buffer that contains an end-of-text marker,
if the first newline byte comes before the first end-of-text marker, the strip
step overwrites the position of that first newline with the end-of-text marker
and changes no other byte; if the first end-of-text marker comes before every
newline, and in particular if the buffer contains no newline byte, it leaves
the buffer unchanged. -/
theorem C9_strip_frame (b : List Byte) (hlen : b.length = CAP) (hnul : NUL ∈ b) :
    (b.indexOf NL < b.indexOf NUL → strip b = some (b.set (b.indexOf NL) NUL)) ∧
    (b.indexOf NUL < b.indexOf NL → strip b = some b) ∧
    (NL ∉ b → strip b = some b) ∧
    ∃ b1, strip b = some b1 ∧ b1.length = CAP ∧
      ∀ j, j ≠ b.indexOf NL → b1[j]? = b[j]? := by
  obtain ⟨a, x, r, rfl, ha, hx⟩ := split_of_mem_nul b hnul
  have h1 := strip_append a r x ha hx
  obtain ⟨ha0, ha1⟩ := not_mem_of_plain a ha
  have hne : NL ≠ NUL := by decide
  rcases hx with rfl | rfl
  · have i0 : (a ++ NUL :: r).indexOf NUL = a.length := by
      rw [List.indexOf_append_of_not_mem ha0, List.indexOf_cons_self]
      rfl
    have i1 : a.length < (a ++ NUL :: r).indexOf NL := by
      rw [List.indexOf_append_of_not_mem ha1, List.indexOf_cons_ne _ hne.symm]
      omega
    refine ⟨fun h => ?_, fun _ => h1, fun _ => h1, _, h1, hlen, fun _ _ => rfl⟩
    omega
  · have i1 : (a ++ NL :: r).indexOf NL = a.length := by
      rw [List.indexOf_append_of_not_mem ha1, List.indexOf_cons_self]
      rfl
    have i0 : a.length < (a ++ NL :: r).indexOf NUL := by
      rw [List.indexOf_append_of_not_mem ha0, List.indexOf_cons_ne _ hne]
      omega
    have hset : (a ++ NL :: r).set ((a ++ NL :: r).indexOf NL) NUL = a ++ NUL :: r := by
      rw [i1]
      exact set_append_cons a r NL NUL
    refine ⟨fun _ => by rw [hset]; exact h1, fun h => ?_, fun h => ?_, _, h1, ?_, ?_⟩
    · omega
    · exact absurd (by simp) h
    · rw [← hlen]
      simp
    · intro j hj
      rw [← hset]
      exact List.getElem?_set_ne (Ne.symm hj)

/-- C9 (amended) at the buffer holding `hi`, a newline and thirteen zero bytes:
the newline at index 2 is overwritten. -/
theorem C9_strip_frame_witness :
    ([104, 105, 10, 0, 0, 0, 0, 0, 0, 0, 0, 0, 0, 0, 0, 0] : List Byte).length = CAP ∧
      NUL ∈ ([104, 105, 10, 0, 0, 0, 0, 0, 0, 0, 0, 0, 0, 0, 0, 0] : List Byte) ∧
      strip [104, 105, 10, 0, 0, 0, 0, 0, 0, 0, 0, 0, 0, 0, 0, 0] =
        some [104, 105, 0, 0, 0, 0, 0, 0, 0, 0, 0, 0, 0, 0, 0, 0] :=
  ⟨by decide, by decide,
    (C9_strip_frame [104, 105, 10, 0, 0, 0, 0, 0, 0, 0, 0, 0, 0, 0, 0, 0] (by decide)
      (by decide)).1 (by decide)⟩

/-! ## The bounded read -/

/-- C10: on every non-empty input the bounded read with capacity 16 succeeds
and splits the input into the bytes it takes and the bytes it leaves unread;
the bytes taken are the shortest stretch of the input that ends with the first
newline byte, or has length 15, or is the whole input; they are stored in order
at the start of the array, followed by an end-of-text marker; `main` reads no
more than that.  In particular, after a newline within the first 15 bytes
everything is left unread. -/
theorem C10_bounded_read (a stdin : List Byte) (hlen : a.length = CAP) (hne : stdin ≠ []) :
    ∃ taken rest,
      fgets a CAP stdin = some ⟨true, taken ++ NUL :: a.drop (taken.length + 1), rest⟩ ∧
      stdin = taken ++ rest ∧
      ReadStop 15 stdin taken ∧
      (∀ p t, stdin = p ++ t → ReadStop 15 stdin p → taken.length ≤ p.length) ∧
      (∀ pre post, stdin = pre ++ NL :: post → NL ∉ pre → pre.length < 15 →
        taken = pre ++ [NL] ∧ rest = post) ∧
      (main stdin).map (·.stdin) = some rest := by
  cases stdin with
  | nil => exact absurd rfl hne
  | cons c st =>
    have hf := fgets_cons a CAP c st (by decide) (le_of_eq hlen.symm)
    have h15 : CAP - 1 = 15 := rfl
    rw [h15] at hf
    refine ⟨consumed 15 (c :: st), (c :: st).drop (consumed 15 (c :: st)).length, hf,
      (consumed_append_drop 15 (c :: st)).symm, consumed_readStop 15 (c :: st),
      fun p t => consumed_length_le_of_readStop 15 (c :: st) p t, ?_, ?_⟩
    · intro pre post hst hn hl
      rw [hst, consumed_append_newline 15 pre post hn hl]
      simp
    · obtain ⟨x, r, -, -, h⟩ := main_cons c st
      simp [h]

/-- C10 at the zeroed buffer and the input `hi`, newline, `x`: the read takes
`hi` and the newline and leaves `x` unread. -/
theorem C10_bounded_read_witness :
    buf0.length = CAP ∧ ([104, 105, 10, 120] : List Byte) ≠ [] ∧
      ∃ taken rest,
        fgets buf0 CAP [104, 105, 10, 120] =
          some ⟨true, taken ++ NUL :: buf0.drop (taken.length + 1), rest⟩ ∧
        [104, 105, 10, 120] = taken ++ rest ∧
        ReadStop 15 [104, 105, 10, 120] taken ∧
        (∀ p t, [104, 105, 10, 120] = p ++ t → ReadStop 15 [104, 105, 10, 120] p →
          taken.length ≤ p.length) ∧
        (∀ pre post, [104, 105, 10, 120] = pre ++ NL :: post → NL ∉ pre → pre.length < 15 →
          taken = pre ++ [NL] ∧ rest = post) ∧
        (main [104, 105, 10, 120]).map (·.stdin) = some rest :=
  ⟨by decide, by decide, C10_bounded_read buf0 [104, 105, 10, 120] (by decide) (by decide)⟩

/-! ## What is left in the buffer, and what the output depends on -/

theorem consumed_newline_last (room : Nat) (st : List Byte) :
    (∃ q, consumed room st = q ++ [NL] ∧ NL ∉ q) ∨ NL ∉ consumed room st := by
  induction room generalizing st with
  | zero => exact Or.inr (by simp [consumed])
  | succ k ih =>
    cases st with
    | nil => exact Or.inr (by simp [consumed])
    | cons c st =>
      by_cases hc : c = NL
      · exact Or.inl ⟨[], by simp [consumed, hc]⟩
      · have e : consumed (k + 1) (c :: st) = c :: consumed k st := by simp [consumed, hc]
        rw [e]
        rcases ih st with ⟨q, hq, hn⟩ | h
        · refine Or.inl ⟨c :: q, by simp [hq], ?_⟩
          simp only [List.mem_cons, not_or]
          exact ⟨fun e => hc e.symm, hn⟩
        · refine Or.inr ?_
          simp only [List.mem_cons, not_or]
          exact ⟨fun e => hc e.symm, h⟩

theorem newline_not_mem_drop_buf0 (n : Nat) : NL ∉ buf0.drop n := by
  intro h
  have h2 := List.mem_of_mem_drop h
  have h3 : NL = NUL := List.eq_of_mem_replicate h2
  exact absurd h3 (by decide)

theorem consumed_take (room : Nat) (st : List Byte) :
    consumed room (st.take room) = consumed room st := by
  induction room generalizing st with
  | zero => simp [consumed]
  | succ k ih =>
    cases st with
    | nil => simp [consumed]
    | cons c st =>
      by_cases hc : c = NL
      · simp [consumed, hc]
      · simp [consumed, hc, ih st]

theorem takeWhile_plain_consumed_nul (room : Nat) (pre post : List Byte)
    (h0 : NUL ∉ pre) (h1 : NL ∉ pre) (hlen : pre.length < room) :
    (consumed room (pre ++ NUL :: post)).takeWhile plain = pre := by
  induction pre generalizing room with
  | nil =>
    obtain ⟨k, rfl⟩ : ∃ k, room = k + 1 := ⟨room - 1, by simp at hlen; omega⟩
    have hne : NUL ≠ NL := by decide
    simp [consumed, hne, List.takeWhile, plain]
  | cons c pre ih =>
    obtain ⟨k, rfl⟩ : ∃ k, room = k + 1 := ⟨room - 1, by simp at hlen; omega⟩
    simp only [List.mem_cons, not_or] at h0 h1
    have hc : c ≠ NL := fun e => h1.1 e.symm
    have hp : plain c = true := (plain_iff c).2 ⟨fun e => h0.1 e.symm, hc⟩
    have hk : pre.length < k := by simpa using hlen
    simp [consumed, hc, List.takeWhile, hp, ih k h0.2 h1.2 hk]

theorem append_newline_inj (a b s t : List Byte) (ha : NL ∉ a) (hb : NL ∉ b)
    (h : a ++ NL :: s = b ++ NL :: t) : a = b := by
  induction a generalizing b with
  | nil =>
    cases b with
    | nil => rfl
    | cons d b =>
      simp only [List.nil_append, List.cons_append, List.cons.injEq] at h
      exact absurd (by rw [← h.1]; exact List.mem_cons_self _ _) hb
  | cons c a ih =>
    cases b with
    | nil =>
      simp only [List.nil_append, List.cons_append, List.cons.injEq] at h
      exact absurd (by rw [h.1]; exact List.mem_cons_self _ _) ha
    | cons d b =>
      simp only [List.cons_append, List.cons.injEq] at h
      simp only [List.mem_cons, not_or] at ha hb
      rw [h.1, ih b ha.2 hb.2 h.2]

/-- C11, as stated, fails at the input `a`, `\0`, `b`, newline: the read
succeeds and stores these four bytes and an end-of-text marker, and after the
strip step the buffer still holds the newline at index 3, among the bytes the
read stored. -/
theorem C11_counterexample :
    (fgets buf0 CAP [97, 0, 98, 10]).map (·.ok) = some true ∧
      (fgets buf0 CAP [97, 0, 98, 10]).map (·.buf) =
        some [97, 0, 98, 10, 0, 0, 0, 0, 0, 0, 0, 0, 0, 0, 0, 0] ∧
      (main [97, 0, 98, 10]).map (·.buf) =
        some [97, 0, 98, 10, 0, 0, 0, 0, 0, 0, 0, 0, 0, 0, 0, 0] ∧
      NL ∈ ([97, 0, 98, 10, 0, 0, 0, 0, 0, 0, 0, 0, 0, 0, 0, 0] : List Byte).take 5 := by
  decide

/-- C11 (amended): on every input on which the read succeeds, after the strip
step the string held in the buffer (the bytes before the first end-of-text
marker) contains no newline byte, and the bytes after those the read stored are
untouched; the bytes the read stored in the buffer (and so the whole buffer) no
longer include a newline byte exactly when the bytes the read took from the
input do not contain both a zero byte and a newline byte. -/
theorem C11_no_newline_left (stdin : List Byte) (hne : stdin ≠ []) :
    ∃ taken rest o s,
      fgets buf0 CAP stdin =
        some ⟨true, taken ++ NUL :: buf0.drop (taken.length + 1), rest⟩ ∧
      stdin = taken ++ rest ∧
      main stdin = some o ∧ o.status = 0 ∧ o.buf.length = CAP ∧
      cstr o.buf = some s ∧ NL ∉ s ∧
      o.buf.drop (taken.length + 1) = buf0.drop (taken.length + 1) ∧
      (NL ∉ o.buf.take (taken.length + 1) ↔ (NUL ∉ taken ∨ NL ∉ taken)) ∧
      (NL ∉ o.buf ↔ (NUL ∉ taken ∨ NL ∉ taken)) := by
  cases stdin with
  | nil => exact absurd rfl hne
  | cons c st =>
    obtain ⟨x, r, h1, h2, h3⟩ := main_cons c st
    have hf := fgets_cons buf0 CAP c st (by decide) (by decide)
    have h15 : CAP - 1 = 15 := rfl
    rw [h15] at hf
    have hp : ∀ d ∈ (consumed 15 (c :: st)).takeWhile plain, plain d = true :=
      plain_of_mem_takeWhile _
    obtain ⟨hp0, hp1⟩ := not_mem_of_plain _ hp
    have hle := consumed_length_le 15 (c :: st)
    have hlen : ((consumed 15 (c :: st)).takeWhile plain ++ NUL :: r).length = CAP := by
      have e : ((consumed 15 (c :: st)).takeWhile plain ++ NUL :: r).length =
          ((consumed 15 (c :: st)).takeWhile plain ++ x :: r).length := by simp
      have h0 : buf0.length = 16 := rfl
      have hcap : CAP = 16 := rfl
      rw [e, ← h1]
      simp only [List.length_append, List.length_cons, List.length_drop, h0]
      omega
    have hne01 : NL ≠ NUL := by decide
    have hD := newline_not_mem_drop_buf0 ((consumed 15 (c :: st)).length + 1)
    -- the newline survives in the tail `r` exactly when a zero byte came before it
    have hr : NL ∈ r ↔ (NUL ∈ consumed 15 (c :: st) ∧ NL ∈ consumed 15 (c :: st)) := by
      constructor
      · intro hmem
        have hin : NL ∈ consumed 15 (c :: st) ++
            NUL :: buf0.drop ((consumed 15 (c :: st)).length + 1) := by
          rw [h1]
          exact List.mem_append_right _ (List.mem_cons_of_mem _ hmem)
        have hT : NL ∈ consumed 15 (c :: st) := by
          rcases List.mem_append.1 hin with h | h
          · exact h
          · rcases List.mem_cons.1 h with h | h
            · exact absurd h hne01
            · exact absurd h hD
        refine ⟨?_, hT⟩
        by_contra hnul
        rcases consumed_newline_last 15 (c :: st) with ⟨q, hq, hn⟩ | hn
        · have hq0 : NUL ∉ q := fun h => hnul (by rw [hq]; exact List.mem_append_left _ h)
          rw [hq, takeWhile_plain_append_newline q hq0 hn] at h1
          simp only [List.append_assoc, List.singleton_append, List.append_cancel_left_eq,
            List.cons.injEq] at h1
          rw [← h1.2] at hmem
          rcases List.mem_cons.1 hmem with h | h
          · exact hne01 h
          · rw [hq] at hD
            exact hD h
        · exact hn hT
      · rintro ⟨hnul, hT⟩
        have hin : NL ∈ (consumed 15 (c :: st)).takeWhile plain ++ x :: r := by
          rw [← h1]
          exact List.mem_append_left _ hT
        rcases List.mem_append.1 hin with h | h
        · exact absurd h hp1
        · rcases List.mem_cons.1 h with h | h
          · exfalso
            rcases consumed_newline_last 15 (c :: st) with ⟨q, hq, hn⟩ | hn
            · have h1n : consumed 15 (c :: st) ++
                  NUL :: buf0.drop ((consumed 15 (c :: st)).length + 1) =
                  (consumed 15 (c :: st)).takeWhile plain ++ NL :: r := by
                rw [h]
                exact h1
              have e : (consumed 15 (c :: st)).takeWhile plain = q := by
                apply append_newline_inj _ q r
                  (NUL :: buf0.drop ((consumed 15 (c :: st)).length + 1)) hp1 hn
                rw [← h1n, hq]
                simp
              have hq0 : NUL ∈ q := by
                rw [hq] at hnul
                rcases List.mem_append.1 hnul with h | h
                · exact h
                · exact absurd (List.mem_singleton.1 h).symm hne01
              exact hp0 (e ▸ hq0)
            · exact hn hT
          · exact h
    have hbuf : NL ∉ (consumed 15 (c :: st)).takeWhile plain ++ NUL :: r ↔
        (NUL ∉ consumed 15 (c :: st) ∨ NL ∉ consumed 15 (c :: st)) := by
      rw [← not_and_or, ← hr]
      simp [hp1, hne01]
    have htl : ((consumed 15 (c :: st)).takeWhile plain).length ≤
        (consumed 15 (c :: st)).length := (List.takeWhile_sublist plain).length_le
    have hdrop : ∀ y, ((consumed 15 (c :: st)).takeWhile plain ++ y :: r).drop
        ((consumed 15 (c :: st)).length + 1) =
        r.drop ((consumed 15 (c :: st)).length -
          ((consumed 15 (c :: st)).takeWhile plain).length) := by
      intro y
      have e : (consumed 15 (c :: st)).length + 1 -
          ((consumed 15 (c :: st)).takeWhile plain).length =
          ((consumed 15 (c :: st)).length -
            ((consumed 15 (c :: st)).takeWhile plain).length) + 1 := by omega
      rw [List.drop_append_eq_append_drop, List.drop_of_length_le (by omega), e]
      simp
    have hdr : ((consumed 15 (c :: st)).takeWhile plain ++ NUL :: r).drop
        ((consumed 15 (c :: st)).length + 1) =
        buf0.drop ((consumed 15 (c :: st)).length + 1) := by
      rw [hdrop NUL, ← hdrop x, ← h1, List.drop_append_eq_append_drop,
        List.drop_of_length_le (by omega)]
      simp
    refine ⟨_, _, _, _, hf, (consumed_append_drop 15 (c :: st)).symm, h3, rfl, hlen,
      cstr_append _ r (fun d hd => ((plain_iff d).1 (hp d hd)).1), hp1, hdr, ?_, hbuf⟩
    rw [← hbuf]
    show NL ∉ ((consumed 15 (c :: st)).takeWhile plain ++ NUL :: r).take _ ↔ _
    constructor
    · intro h hmem
      rw [← List.take_append_drop ((consumed 15 (c :: st)).length + 1)
        ((consumed 15 (c :: st)).takeWhile plain ++ NUL :: r)] at hmem
      rcases List.mem_append.1 hmem with h4 | h4
      · exact h h4
      · rw [hdr] at h4
        exact hD h4
    · intro h hmem
      exact h (List.mem_of_mem_take hmem)

/-- C11 (amended) at the input `a`, `\0`, `b`: the bytes taken hold a zero byte
but no newline, and no byte of the buffer is a newline at exit. -/
theorem C11_no_newline_left_witness :
    ([97, 0, 98] : List Byte) ≠ [] ∧
      ∃ taken rest o s,
        fgets buf0 CAP [97, 0, 98] =
          some ⟨true, taken ++ NUL :: buf0.drop (taken.length + 1), rest⟩ ∧
        [97, 0, 98] = taken ++ rest ∧
        main [97, 0, 98] = some o ∧ o.status = 0 ∧ o.buf.length = CAP ∧
        cstr o.buf = some s ∧ NL ∉ s ∧
        o.buf.drop (taken.length + 1) = buf0.drop (taken.length + 1) ∧
        (NL ∉ o.buf.take (taken.length + 1) ↔ (NUL ∉ taken ∨ NL ∉ taken)) ∧
        (NL ∉ o.buf ↔ (NUL ∉ taken ∨ NL ∉ taken)) :=
  ⟨by decide, C11_no_newline_left [97, 0, 98] (by decide)⟩

/-- C12: on every non-empty input (zero bytes allowed anywhere) the read
succeeds, and the output of `main` is the bytes of the stretch it took that come
before the first byte equal to the zero byte or to the newline byte (the whole
stretch if it has neither), followed by one newline, with exit status 0.  In
particular, when a zero byte comes before every newline within the first 15
bytes, only the bytes before that zero byte are echoed. -/
theorem C12_output_is_cut_at_zero_or_newline (stdin : List Byte) (hne : stdin ≠ []) :
    ∃ taken rest,
      fgets buf0 CAP stdin =
        some ⟨true, taken ++ NUL :: buf0.drop (taken.length + 1), rest⟩ ∧
      stdin = taken ++ rest ∧
      run stdin =
        some (taken.takeWhile (fun c => decide (c ≠ NUL) && decide (c ≠ NL)) ++ [NL], 0) ∧
      ((NUL ∉ taken ∧ NL ∉ taken) → run stdin = some (taken ++ [NL], 0)) ∧
      (∀ pre post, stdin = pre ++ NUL :: post → NUL ∉ pre → NL ∉ pre → pre.length < 15 →
        run stdin = some (pre ++ [NL], 0)) := by
  cases stdin with
  | nil => exact absurd rfl hne
  | cons c st =>
    have hf := fgets_cons buf0 CAP c st (by decide) (by decide)
    have h15 : CAP - 1 = 15 := rfl
    rw [h15] at hf
    have hr := run_cons c st
    refine ⟨_, _, hf, (consumed_append_drop 15 (c :: st)).symm, hr, fun h => ?_,
      fun pre post hst h0 h1 hl => ?_⟩
    · rw [hr, takeWhile_plain_self _ h.1 h.2]
    · rw [hr, hst, takeWhile_plain_consumed_nul 15 pre post h0 h1 hl]

/-- C12 at the input `a`, `\0`, `b`, newline: the output is `a` and a
newline. -/
theorem C12_output_is_cut_at_zero_or_newline_witness :
    ([97, 0, 98, 10] : List Byte) ≠ [] ∧ run [97, 0, 98, 10] = some ([97, 10], 0) :=
  ⟨by decide, by
    obtain ⟨_, _, -, -, -, -, h⟩ := C12_output_is_cut_at_zero_or_newline [97, 0, 98, 10] (by decide)
    exact h [97] [98, 10] (by decide) (by decide) (by decide) (by decide)⟩

/-- C13: the output and the exit status of `main` depend only on the first 15
bytes of the input: two inputs with the same first 15 bytes (the same whole
input, if shorter) give runs that both return, with the same output bytes and
the same exit status. -/
theorem C13_depends_on_first_15_bytes (x y : List Byte) (h : x.take 15 = y.take 15) :
    run x = run y ∧ (run x).isSome = true := by
  have hc : consumed 15 x = consumed 15 y := by
    rw [← consumed_take 15 x, ← consumed_take 15 y, h]
  cases x with
  | nil =>
    cases y with
    | nil => exact ⟨rfl, by simp [run_nil]⟩
    | cons d y => simp at h
  | cons c x =>
    cases y with
    | nil => simp at h
    | cons d y =>
      rw [run_cons, run_cons, hc]
      exact ⟨rfl, rfl⟩

/-- C13 at two inputs that share their first 15 bytes, the first 15 letters of
the alphabet, and differ afterwards. -/
theorem C13_depends_on_first_15_bytes_witness :
    ([97, 98, 99, 100, 101, 102, 103, 104, 105, 106, 107, 108, 109, 110, 111, 112, 10] :
        List Byte).take 15 =
      ([97, 98, 99, 100, 101, 102, 103, 104, 105, 106, 107, 108, 109, 110, 111, 0, 88, 89] :
        List Byte).take 15 ∧
      run [97, 98, 99, 100, 101, 102, 103, 104, 105, 106, 107, 108, 109, 110, 111, 112, 10] =
        run [97, 98, 99, 100, 101, 102, 103, 104, 105, 106, 107, 108, 109, 110, 111, 0, 88,
          89] ∧
      (run [97, 98, 99, 100, 101, 102, 103, 104, 105, 106, 107, 108, 109, 110, 111, 112,
        10]).isSome = true :=
  ⟨by decide, C13_depends_on_first_15_bytes _ _ (by decide)⟩

end Echo
